import Mathlib

/-!
Verification of the particle-system sketch (src/js/sketch.js).

The sketch simulates moving particles and, each frame, links pairs of
particles that are mutually within a connection radius, either through a
rebuilt-per-frame quadtree or through a brute-force all-pairs scan.

Embedding conventions:
* Plane coordinates are modelled by an arbitrary linear ordered field.
  The quadtree, boundary geometry and pair enumeration are stated over
  that field and instantiated at the rationals where concrete evaluation
  is wanted, and at the reals where the motion model (which uses square
  roots) feeds them.
* Particles stored in the quadtree are modelled by their index into the
  global particle array: the JavaScript code stores object references
  and recovers the index with Array.prototype.indexOf, which for the
  distinct particle objects of this sketch is exactly the array index.
  Positions are supplied by an explicit lookup function so that, as in
  the source, a query sees the current position of a stored particle.
* The comparison dist(a, b) < r on Euclidean distances is rendered
  square-free as 0 <= r and distSq(a, b) < r^2, which is equivalent
  over an ordered field.
* Boolean-returning JavaScript methods become Bool-valued functions.
-/

namespace PSim

/-- Number of particles created at startup (sketch.js line 7). -/
def numParticles : ℕ := 150

/-- Maximum particle velocity (line 8). -/
def maxSpeed : ℚ := 2

/-- Base size for particles (line 9). -/
def particleSize : ℚ := 5

/-- Maximum distance for particle connections (line 10). -/
def connectionDistance : ℚ := 120

/-- Axis-aligned rectangle given by center and half-extents
(Boundary class, lines 229-254). -/
structure Boundary (α : Type) where
  x : α
  y : α
  w : α
  h : α

/-- Circular query region (Circle class, lines 259-265). -/
structure Circle (α : Type) where
  x : α
  y : α
  r : α

variable {α : Type} [LinearOrderedField α]

/-- Boundary.contains (lines 237-244): half-open membership test
pos.x >= x-w, pos.x < x+w, pos.y >= y-h, pos.y < y+h. -/
def Boundary.contains (b : Boundary α) (px py : α) : Bool :=
  decide (b.x - b.w ≤ px) && decide (px < b.x + b.w) &&
    decide (b.y - b.h ≤ py) && decide (py < b.y + b.h)

/-- Boundary.intersects (lines 246-253): bounding-square broad-phase test
written exactly as the negated disjunction of the four separations. -/
def Boundary.intersects (b : Boundary α) (c : Circle α) : Bool :=
  !(decide (b.x + b.w < c.x - c.r) || decide (c.x + c.r < b.x - b.w) ||
    decide (b.y + b.h < c.y - c.r) || decide (c.y + c.r < b.y - b.h))

/-- The comparison dist(x1,y1,x2,y2) < r of the sketch (p5.dist computes the
Euclidean distance), rendered square-free: equivalent to 0 <= r together
with the squared distance being below r^2. -/
def distLt (x1 y1 x2 y2 r : α) : Bool :=
  decide (0 ≤ r) && decide ((x2 - x1) ^ 2 + (y2 - y1) ^ 2 < r ^ 2)

/-- Northeast child boundary built by QuadTree.subdivide (lines 279-296):
center offset by the halved half-extents. -/
def neOf (b : Boundary α) : Boundary α :=
  ⟨b.x + b.w / 2, b.y - b.h / 2, b.w / 2, b.h / 2⟩

/-- Northwest child boundary of QuadTree.subdivide. -/
def nwOf (b : Boundary α) : Boundary α :=
  ⟨b.x - b.w / 2, b.y - b.h / 2, b.w / 2, b.h / 2⟩

/-- Southeast child boundary of QuadTree.subdivide. -/
def seOf (b : Boundary α) : Boundary α :=
  ⟨b.x + b.w / 2, b.y + b.h / 2, b.w / 2, b.h / 2⟩

/-- Southwest child boundary of QuadTree.subdivide. -/
def swOf (b : Boundary α) : Boundary α :=
  ⟨b.x - b.w / 2, b.y + b.h / 2, b.w / 2, b.h / 2⟩

/-- QuadTree node (lines 270-345): a boundary, a capacity, the directly
held points, and after subdivision the four children. The sketch keeps
the flag this.divided; here an undivided node is a leaf constructor and a
divided one is a node constructor. Points are particle indices. -/
inductive QuadTree (α : Type) where
  | leaf (boundary : Boundary α) (capacity : ℕ) (points : List ℕ)
  | node (boundary : Boundary α) (capacity : ℕ) (points : List ℕ)
      (northeast northwest southeast southwest : QuadTree α)

/-- The boundary field of a quadtree node. -/
def QuadTree.boundary : QuadTree α → Boundary α
  | .leaf b _ _ => b
  | .node b _ _ _ _ _ _ => b

/-- The capacity field of a quadtree node. -/
def QuadTree.capacity : QuadTree α → ℕ
  | .leaf _ cap _ => cap
  | .node _ cap _ _ _ _ _ => cap

/-- The points held directly by a quadtree node (this.points). -/
def QuadTree.heldPoints : QuadTree α → List ℕ
  | .leaf _ _ pts => pts
  | .node _ _ pts _ _ _ _ => pts

/-- The this.divided flag of a quadtree node. -/
def QuadTree.divided : QuadTree α → Bool
  | .leaf _ _ _ => false
  | .node _ _ _ _ _ _ _ => true

/-- A freshly constructed quadtree node: new QuadTree(boundary, capacity)
has empty points and divided = false (lines 271-276). -/
def emptyLeaf (b : Boundary α) (cap : ℕ) : QuadTree α :=
  QuadTree.leaf b cap []

/-- Inserting into a freshly created empty child: the source simply calls
insert recursively on the new child, which (whenever capacity is at least
one, as for every tree this sketch builds - the root is created with
capacity 4 and children inherit it) immediately appends the point when the
child boundary contains it and fails otherwise. This is that one
recursion step unfolded; a capacity-zero tree would make the source
recurse forever, which is modelled here as failure. -/
def insertFresh (posOf : ℕ → α × α) (b : Boundary α) (cap : ℕ) (i : ℕ) :
    Option (QuadTree α) :=
  if b.contains (posOf i).1 (posOf i).2 && decide (0 < cap) then
    some (QuadTree.leaf b cap [i])
  else none

/-- QuadTree.insert (lines 299-319). Returns none where the source
returns false. The source mutates in place; here the updated tree is
returned. If the boundary does not contain the point it fails; if the
directly held points are below capacity the point is appended; otherwise
an undivided node subdivides (lines 279-296) and the point is delegated
to the children northeast, northwest, southeast, southwest in order,
taking the first success, exactly as the short-circuit disjunction of the
source. (On trees whose children tile the parent boundary - the only
trees the class ever builds - delegation from a containing parent cannot
fail, so no failing call ever discards a subdivision.) -/
def QuadTree.insert (posOf : ℕ → α × α) : QuadTree α → ℕ → Option (QuadTree α)
  | .leaf b cap pts, i =>
    if b.contains (posOf i).1 (posOf i).2 then
      if pts.length < cap then some (.leaf b cap (pts ++ [i]))
      else
        match insertFresh posOf (neOf b) cap i with
        | some tne => some (.node b cap pts tne (emptyLeaf (nwOf b) cap)
            (emptyLeaf (seOf b) cap) (emptyLeaf (swOf b) cap))
        | none =>
          match insertFresh posOf (nwOf b) cap i with
          | some tnw => some (.node b cap pts (emptyLeaf (neOf b) cap) tnw
              (emptyLeaf (seOf b) cap) (emptyLeaf (swOf b) cap))
          | none =>
            match insertFresh posOf (seOf b) cap i with
            | some tse => some (.node b cap pts (emptyLeaf (neOf b) cap)
                (emptyLeaf (nwOf b) cap) tse (emptyLeaf (swOf b) cap))
            | none =>
              match insertFresh posOf (swOf b) cap i with
              | some tsw => some (.node b cap pts (emptyLeaf (neOf b) cap)
                  (emptyLeaf (nwOf b) cap) (emptyLeaf (seOf b) cap) tsw)
              | none => none
    else none
  | .node b cap pts tne tnw tse tsw, i =>
    if b.contains (posOf i).1 (posOf i).2 then
      if pts.length < cap then some (.node b cap (pts ++ [i]) tne tnw tse tsw)
      else
        match tne.insert posOf i with
        | some t => some (.node b cap pts t tnw tse tsw)
        | none =>
          match tnw.insert posOf i with
          | some t => some (.node b cap pts tne t tse tsw)
          | none =>
            match tse.insert posOf i with
            | some t => some (.node b cap pts tne tnw t tsw)
            | none =>
              match tsw.insert posOf i with
              | some t => some (.node b cap pts tne tnw tse t)
              | none => none
    else none

/-- QuadTree.query (lines 322-344): prune when the boundary does not
intersect the range, otherwise keep the directly held points whose
current position (looked up through posOf, as the source reads p.pos of
the stored reference) is strictly within the radius, and recurse into all
four children. Results are accumulated in source order: this node's
points first, then northeast, northwest, southeast, southwest. -/
def QuadTree.query (posOf : ℕ → α × α) (c : Circle α) : QuadTree α → List ℕ
  | .leaf b _ pts =>
    if b.intersects c then
      pts.filter fun j => distLt c.x c.y (posOf j).1 (posOf j).2 c.r
    else []
  | .node b _ pts tne tnw tse tsw =>
    if b.intersects c then
      (pts.filter fun j => distLt c.x c.y (posOf j).1 (posOf j).2 c.r)
        ++ tne.query posOf c ++ tnw.query posOf c
        ++ tse.query posOf c ++ tsw.query posOf c
    else []

/-- All points stored anywhere in the tree, as a multiset. -/
def QuadTree.stored : QuadTree α → Multiset ℕ
  | .leaf _ _ pts => (pts : Multiset ℕ)
  | .node _ _ pts tne tnw tse tsw =>
    (pts : Multiset ℕ) + tne.stored + tnw.stored + tse.stored + tsw.stored

/-- The draw loop ignores the boolean result of insert (line 72); a failed
insertion leaves the tree unchanged. -/
def insertOrKeep (posOf : ℕ → α × α) (t : QuadTree α) (i : ℕ) : QuadTree α :=
  (t.insert posOf i).getD t

/-- Root boundary used by setup and draw (lines 41 and 69):
new Boundary(width/2, height/2, width/2, height/2). -/
def rootBoundary (w h : α) : Boundary α :=
  ⟨w / 2, h / 2, w / 2, h / 2⟩

/-- Per-frame index construction (lines 68-74): a fresh capacity-4 tree on
the root boundary receiving every particle index in array order. -/
def buildTree (posOf : ℕ → α × α) (w h : α) (n : ℕ) : QuadTree α :=
  (List.range n).foldl (insertOrKeep posOf) (emptyLeaf (rootBoundary w h) 4)

/-- The connection pairs emitted by the indexed path of draw
(lines 82-96) on a fixed particle state: for each particle index i, query
the tree with a circle of the connection radius centered on particle i,
keep the neighbors j with i < j (the source skips neighbor === particles[i]
and indexOf(neighbor) <= i) whose distance is below the radius, and emit
(i, j). -/
def indexedPairs (posOf : ℕ → α × α) (n : ℕ) (w h r : α) : List (ℕ × ℕ) :=
  let t := buildTree posOf w h n
  (List.range n).flatMap fun i =>
    ((t.query posOf ⟨(posOf i).1, (posOf i).2, r⟩).filter fun j =>
        decide (i < j) &&
          distLt (posOf i).1 (posOf i).2 (posOf j).1 (posOf j).2 r).map
      fun j => (i, j)

/-- The connection pairs emitted by the brute-force path of draw
(lines 97-105) on a fixed particle state: all pairs i < j with distance
below the radius, in the same enumeration order. -/
def brutePairs (posOf : ℕ → α × α) (n : ℕ) (r : α) : List (ℕ × ℕ) :=
  (List.range n).flatMap fun i =>
    (((List.range n).filter fun j =>
        decide (i < j) &&
          distLt (posOf i).1 (posOf i).2 (posOf j).1 (posOf j).2 r).map
      fun j => (i, j))

/-- p5.map without bounds (used by drawConnection, lines 117-118):
linear interpolation ((v - a) / (b - a)) * (d - c) + c. -/
def mapRange (v a b c d : α) : α :=
  (v - a) / (b - a) * (d - c) + c

/-- Connection alpha computed by drawConnection (line 117):
map(distance, 0, connectionDistance, 1, 0). -/
def connectionAlpha (d : ℚ) : ℚ :=
  mapRange d 0 connectionDistance 1 0

/-- Connection stroke weight computed by drawConnection (line 118):
map(distance, 0, connectionDistance, 2, 0.1). -/
def connectionWeight (d : ℚ) : ℚ :=
  mapRange d 0 connectionDistance 2 (1 / 10)

/-- Per-node invariant of every tree the sketch builds: the points held
by a node lie inside that node's boundary under the given position
lookup, and the children of a divided node carry the subdivide quadrant
boundaries and the parent's capacity. Query correctness rests on it. -/
def Placed (posOf : ℕ → α × α) : QuadTree α → Prop
  | .leaf b _ pts => ∀ j ∈ pts, b.contains (posOf j).1 (posOf j).2 = true
  | .node b cap pts tne tnw tse tsw =>
    (∀ j ∈ pts, b.contains (posOf j).1 (posOf j).2 = true) ∧
      tne.boundary = neOf b ∧ tnw.boundary = nwOf b ∧
      tse.boundary = seOf b ∧ tsw.boundary = swOf b ∧
      tne.capacity = cap ∧ tnw.capacity = cap ∧
      tse.capacity = cap ∧ tsw.capacity = cap ∧
      Placed posOf tne ∧ Placed posOf tnw ∧ Placed posOf tse ∧ Placed posOf tsw

/-- Size discipline of the nodes of a tree: an undivided node holds at
most capacity points, a divided node holds exactly capacity points
directly (the four pre-subdivision points are kept, line 304 tests
this.points.length against capacity before delegating). -/
def SizeInv : QuadTree α → Prop
  | .leaf _ cap pts => pts.length ≤ cap
  | .node _ cap pts tne tnw tse tsw =>
    pts.length = cap ∧ SizeInv tne ∧ SizeInv tnw ∧ SizeInv tse ∧ SizeInv tsw

/-- Every node of the tree carries capacity c, as in the sketch where
children inherit the parent capacity (lines 290-293). -/
def capAll (c : ℕ) : QuadTree α → Prop
  | .leaf _ cap _ => cap = c
  | .node _ cap _ tne tnw tse tsw =>
    cap = c ∧ capAll c tne ∧ capAll c tnw ∧ capAll c tse ∧ capAll c tsw

/-! ### Particle motion model (Particle class, lines 148-224)

The motion model uses p5 vector operations whose exact semantics involve
square roots (normalize, limit) and the trigonometric pulse, so it is
embedded over the reals. -/

/-- Kinematic and cosmetic state of one particle (constructor lines
149-158; the constructor draws random values, modelled as arbitrary
field contents). -/
structure Particle where
  px : ℝ
  py : ℝ
  vx : ℝ
  vy : ℝ
  ax : ℝ
  ay : ℝ
  hue : ℝ
  baseSize : ℝ
  size : ℝ
  pulseSpeed : ℝ
  pulseOffset : ℝ

instance : Inhabited Particle :=
  ⟨⟨0, 0, 0, 0, 0, 0, 0, 0, 0, 0, 0⟩⟩

/-- Truncation toward zero on the reals, as the JavaScript remainder
operator uses. -/
noncomputable def jsTrunc (x : ℝ) : ℤ :=
  if 0 ≤ x then ⌊x⌋ else ⌈x⌉

/-- The JavaScript remainder a % b (same sign as the dividend):
a - b * trunc(a / b). -/
noncomputable def jsMod (a b : ℝ) : ℝ :=
  a - b * jsTrunc (a / b)

/-- p5.Vector.limit as used at line 191: rescale the vector to magnitude
m exactly when its squared magnitude exceeds m * m, otherwise leave it. -/
noncomputable def limitVec (vx vy m : ℝ) : ℝ × ℝ :=
  if m * m < vx * vx + vy * vy then
    (vx / Real.sqrt (vx * vx + vy * vy) * m,
      vy / Real.sqrt (vx * vx + vy * vy) * m)
  else (vx, vy)

/-- Edge handling for one axis (lines 198-201): a coordinate below zero
is reset to the domain maximum, one beyond the maximum is reset to zero.
The two source ifs run in sequence, but the first assigns the maximum
itself, which never satisfies the second test, so the composition equals
this nested conditional. -/
noncomputable def wrapCoord (m x : ℝ) : ℝ :=
  if x < 0 then m else if m < x then 0 else x

/-- Pointer-interaction acceleration (lines 161-184). When the mouse is
pressed and farther than 5 from the particle: the unit vector toward the
mouse (negated in repulsion mode) scaled by the clamped strength
constrain(1 / (distance * 0.03), 0, 0.8), where p5.constrain(v, lo, hi)
is max(min(v, hi), lo). When the mouse is pressed within distance 5 the
source assigns nothing, so the acceleration kept from the previous call
flows through. When the mouse is not pressed the acceleration is reset
to the zero vector. -/
noncomputable def pointerAcc (mousePressed : Bool) (mouseX mouseY : ℝ)
    (repulsion : Bool) (p : Particle) : ℝ × ℝ :=
  if mousePressed then
    let dirX := mouseX - p.px
    let dirY := mouseY - p.py
    let distance := Real.sqrt (dirX * dirX + dirY * dirY)
    if 5 < distance then
      let nX := dirX / distance
      let nY := dirY / distance
      let sX := if repulsion then -nX else nX
      let sY := if repulsion then -nY else nY
      let strength := max (min (1 / (distance * 0.03)) 0.8) 0
      (sX * strength, sY * strength)
    else (p.ax, p.ay)
  else (0, 0)

/-- Particle.update (lines 160-208). Inputs beyond the particle: pointer
state, repulsion mode, the unit vector produced by p5.Vector.random2D for
this call, the global frameCount, and the domain size. Steps in source
order: pointer acceleration, random perturbation scaled by 0.01, velocity
update, limit to maxSpeed, position update, drag 0.99 on the velocity,
edge reset on the position, pulsing size, hue advance modulo 360. -/
noncomputable def Particle.update (mousePressed : Bool) (mouseX mouseY : ℝ)
    (repulsion : Bool) (randX randY : ℝ) (frameCount : ℕ)
    (width height : ℝ) (p : Particle) : Particle :=
  let acc0 := pointerAcc mousePressed mouseX mouseY repulsion p
  let accX := acc0.1 + randX * 0.01
  let accY := acc0.2 + randY * 0.01
  let vel0X := p.vx + accX
  let vel0Y := p.vy + accY
  let lim := limitVec vel0X vel0Y (maxSpeed : ℝ)
  let posX := p.px + lim.1
  let posY := p.py + lim.2
  { px := wrapCoord width posX
    py := wrapCoord height posY
    vx := lim.1 * 0.99
    vy := lim.2 * 0.99
    ax := accX
    ay := accY
    hue := jsMod (p.hue + 0.1) 360
    baseSize := p.baseSize
    size := p.baseSize +
      Real.sin (frameCount * p.pulseSpeed + p.pulseOffset) * (p.baseSize * 0.3)
    pulseSpeed := p.pulseSpeed
    pulseOffset := p.pulseOffset }

/-- Position lookup into the particle array, matching how the quadtree
holds references into it: reading a stored reference yields the current
position. Out-of-range indices (never produced by the sketch) read the
default particle. -/
def posOfList (arr : List Particle) : ℕ → ℝ × ℝ :=
  fun j => ((arr.getD j default).px, (arr.getD j default).py)

/-- The external inputs read by one frame of draw: pointer state (the
mouseIsPressed, mouseX, mouseY globals), the repulsion flag, the unit
vectors drawn by p5.Vector.random2D for each particle this frame, the
frameCount global and the domain size. -/
structure FrameInput where
  mousePressed : Bool
  mouseX : ℝ
  mouseY : ℝ
  repulsion : Bool
  rand : ℕ → ℝ × ℝ
  frameCount : ℕ
  width : ℝ
  height : ℝ

/-- The result of advancing particle i of the start-of-frame array. -/
noncomputable def updAt (inp : FrameInput) (ps : List Particle) (i : ℕ) :
    Particle :=
  (ps.getD i default).update inp.mousePressed inp.mouseX inp.mouseY
    inp.repulsion (inp.rand i).1 (inp.rand i).2 inp.frameCount
    inp.width inp.height

/-- One frame of the indexed path of draw (lines 68-106), omitting the
rendering calls. First the quadtree is rebuilt from the current, start of
frame, particle positions (lines 68-74); then for each index i in order,
particle i is advanced and the tree is queried with the connection radius
around its updated position, emitting (i, j) for every found neighbor j
with i < j whose distance is below the radius (lines 77-96). Because the
tree stores references, position reads during a query see current data:
already-updated particles for indices up to i, start-of-frame ones above.
Returns the updated array and the emitted pairs in order. -/
noncomputable def drawStep (inp : FrameInput) (particles : List Particle) :
    List Particle × List (ℕ × ℕ) :=
  let tree := buildTree (posOfList particles) inp.width inp.height
    particles.length
  (List.range particles.length).foldl
    (fun st i =>
      let q := (st.1.getD i default).update inp.mousePressed inp.mouseX
        inp.mouseY inp.repulsion (inp.rand i).1 (inp.rand i).2
        inp.frameCount inp.width inp.height
      let arr := st.1.set i q
      let found := tree.query (posOfList arr)
        ⟨q.px, q.py, (connectionDistance : ℝ)⟩
      let conns := (found.filter fun j =>
          decide (i < j) && distLt q.px q.py (posOfList arr j).1
            (posOfList arr j).2 (connectionDistance : ℝ)).map fun j => (i, j)
      (arr, st.2 ++ conns))
    (particles, [])

/-- Modelled from the spec, sections 2 and 4.4, for comparison with
drawStep: advance every particle first, then build the index from the
already-updated positions, and only then run every range query against
it, emitting pairs under the same filter as the draw loop. -/
noncomputable def specOrderedStep (inp : FrameInput)
    (particles : List Particle) : List Particle × List (ℕ × ℕ) :=
  let updated := (List.range particles.length).map (updAt inp particles)
  let tree := buildTree (posOfList updated) inp.width inp.height
    updated.length
  (updated,
    (List.range updated.length).flatMap fun i =>
      ((tree.query (posOfList updated)
          ⟨(posOfList updated i).1, (posOfList updated i).2,
            (connectionDistance : ℝ)⟩).filter fun j =>
          decide (i < j) &&
            distLt (posOfList updated i).1 (posOfList updated i).2
              (posOfList updated j).1 (posOfList updated j).2
              (connectionDistance : ℝ)).map fun j => (i, j))

/-- The particle array part way through the draw loop: after the first m
iterations, indices below m hold the advanced particles and the rest
still hold start-of-frame data. -/
noncomputable def mixedArr (inp : FrameInput) (ps : List Particle) :
    ℕ → List Particle
  | 0 => ps
  | m + 1 => (mixedArr inp ps m).set m (updAt inp ps m)

/-- Concrete frame input used to compare drawStep with the spec-ordered
step: pointer inactive, jitter unit vector (0, 1) for particle 0 and
(-1, 0) for every other particle, domain 400 by 300. -/
noncomputable def probeInput : FrameInput :=
  ⟨false, 0, 0, false, fun k => if k = 0 then (0, 1) else (-1, 0), 0,
    400, 300⟩

/-- Concrete two-particle state: particle 0 at rest at the origin,
particle 1 at x = 121 moving left at speed 1.99, so that it enters the
connection radius of particle 0 only through this frame's update. -/
noncomputable def probeParticles : List Particle :=
  [⟨0, 0, 0, 0, 0, 0, 0, 0, 0, 0, 0⟩,
    ⟨121, 0, -1.99, 0, 0, 0, 0, 0, 0, 0, 0⟩]

/-- The connection pairs contributed by iteration i of the draw loop:
the query runs against the tree built from start-of-frame positions but
reads positions through the array state after particle i was advanced. -/
noncomputable def connsAt (inp : FrameInput) (ps : List Particle) (i : ℕ) :
    List (ℕ × ℕ) :=
  ((buildTree (posOfList ps) inp.width inp.height ps.length).query
      (posOfList (mixedArr inp ps (i + 1)))
      ⟨(updAt inp ps i).px, (updAt inp ps i).py,
        (connectionDistance : ℝ)⟩).filter (fun j =>
      decide (i < j) &&
        distLt (updAt inp ps i).px (updAt inp ps i).py
          (posOfList (mixedArr inp ps (i + 1)) j).1
          (posOfList (mixedArr inp ps (i + 1)) j).2
          (connectionDistance : ℝ))
    |>.map fun j => (i, j)

/-! ### Structural commands (keyPressed, lines 357-391) -/

/-- Structural command applied between frames by keyPressed: the A key
pushes ten fresh particles (lines 364-368; the pushed batch is carried as
data since the constructor draws random state), the D key removes ten
from the end when more than ten are present (lines 370-375). -/
inductive Command (β : Type) where
  | add (newParticles : List β)
  | remove

/-- Ten pops from the end of the particle array (lines 372-374). -/
def removeTen {β : Type} (l : List β) : List β :=
  (List.range 10).foldl (fun acc _ => acc.dropLast) l

/-- One keyPressed command on the particle array. Removal is guarded by
particles.length > 10 (line 371). -/
def applyCommand {β : Type} (l : List β) : Command β → List β
  | .add ps => l ++ ps
  | .remove => if 10 < l.length then removeTen l else l

/-- A sequence of structural commands applied between frames. -/
def applyCommands {β : Type} (l : List β) (cs : List (Command β)) : List β :=
  cs.foldl applyCommand l

/-- The population floor of the removal guard: length > 10 is exactly the
condition that removing ten would leave the count strictly above zero. -/
def populationFloor : ℕ := 0

/-! ## Theorems -/

/-- Boundary.contains unfolded into its four inequalities. -/
theorem contains_iff (b : Boundary α) (px py : α) :
    b.contains px py = true ↔
      b.x - b.w ≤ px ∧ px < b.x + b.w ∧ b.y - b.h ≤ py ∧ py < b.y + b.h := by
  simp [Boundary.contains, and_assoc]

/-- Boundary.intersects unfolded into its four inequalities. -/
theorem intersects_iff (b : Boundary α) (c : Circle α) :
    b.intersects c = true ↔
      c.x - c.r ≤ b.x + b.w ∧ b.x - b.w ≤ c.x + c.r ∧
        c.y - c.r ≤ b.y + b.h ∧ b.y - b.h ≤ c.y + c.r := by
  simp [Boundary.intersects, not_or, not_lt, and_assoc]

/-- distLt unfolded. -/
theorem distLt_iff (x1 y1 x2 y2 r : α) :
    distLt x1 y1 x2 y2 r = true ↔
      0 ≤ r ∧ (x2 - x1) ^ 2 + (y2 - y1) ^ 2 < r ^ 2 := by
  simp [distLt]

/-- Broad-phase completeness: a rectangle containing, in its closed hull,
a point that lies within the region radius of the region center always
passes the intersects test. -/
theorem intersects_of_closeMember (b : Boundary α) (c : Circle α) (px py : α)
    (hx1 : b.x - b.w ≤ px) (hx2 : px ≤ b.x + b.w)
    (hy1 : b.y - b.h ≤ py) (hy2 : py ≤ b.y + b.h) (hr : 0 ≤ c.r)
    (hd : (px - c.x) ^ 2 + (py - c.y) ^ 2 ≤ c.r ^ 2) :
    b.intersects c = true := by
  rw [intersects_iff]
  have h1 : c.x - c.r ≤ px := by
    nlinarith [sq_nonneg (py - c.y), sq_nonneg (px - c.x + c.r)]
  have h2 : px ≤ c.x + c.r := by
    nlinarith [sq_nonneg (py - c.y), sq_nonneg (px - c.x - c.r)]
  have h3 : c.y - c.r ≤ py := by
    nlinarith [sq_nonneg (px - c.x), sq_nonneg (py - c.y + c.r)]
  have h4 : py ≤ c.y + c.r := by
    nlinarith [sq_nonneg (px - c.x), sq_nonneg (py - c.y - c.r)]
  exact ⟨by linarith, by linarith, by linarith, by linarith⟩

/-- C2: for every rectangular boundary and every circular query region
that truly overlap - some point of the closed rectangle lies within the
region radius of the region center - Boundary.intersects returns true:
the broad-phase test may admit false positives but never rejects a true
overlap. -/
theorem c2_intersects_no_false_negative (b : Boundary ℚ) (c : Circle ℚ)
    (px py : ℚ) (hx1 : b.x - b.w ≤ px) (hx2 : px ≤ b.x + b.w)
    (hy1 : b.y - b.h ≤ py) (hy2 : py ≤ b.y + b.h) (hr : 0 ≤ c.r)
    (hd : (px - c.x) ^ 2 + (py - c.y) ^ 2 ≤ c.r ^ 2) :
    b.intersects c = true :=
  intersects_of_closeMember b c px py hx1 hx2 hy1 hy2 hr hd

/-- Witness for C2: rectangle centered (50,50) with half-extents 50,
region centered (120,50) with radius 30, overlap point (95,50). -/
theorem c2_intersects_no_false_negative_witness :
    (Boundary.mk (50 : ℚ) 50 50 50).intersects (Circle.mk 120 50 30) = true :=
  c2_intersects_no_false_negative (Boundary.mk (50 : ℚ) 50 50 50)
    (Circle.mk 120 50 30) 95 50 (by norm_num) (by norm_num) (by norm_num)
    (by norm_num) (by norm_num) (by norm_num)

/-- C9 counterexample: at distance exactly the connection radius the
stroke weight computed by drawConnection is 0.1, not zero, refuting the
claim that both strength values vanish at the connection radius. -/
theorem c9_counterexample : connectionWeight connectionDistance ≠ 0 := by
  norm_num [connectionWeight, mapRange, connectionDistance]

/-- C9 (amended): alpha and stroke weight are affine (linear) functions
of the distance, maximal at distance 0 over nonnegative distances with
values 1 and 2; alpha vanishes at the connection radius while the stroke
weight reaches 0.1 there, not zero. -/
theorem c9_connection_strength :
    (∀ d : ℚ, connectionAlpha d = 1 - d / connectionDistance) ∧
    (∀ d : ℚ, connectionWeight d = 2 - 19 / 10 * (d / connectionDistance)) ∧
    connectionAlpha 0 = 1 ∧ connectionAlpha connectionDistance = 0 ∧
    connectionWeight 0 = 2 ∧ connectionWeight connectionDistance = 1 / 10 ∧
    (∀ d : ℚ, 0 ≤ d → connectionAlpha d ≤ connectionAlpha 0 ∧
      connectionWeight d ≤ connectionWeight 0) := by
  have ha : ∀ d : ℚ, connectionAlpha d = 1 - d / connectionDistance := by
    intro d
    norm_num [connectionAlpha, mapRange, connectionDistance]
    ring
  have hw : ∀ d : ℚ, connectionWeight d = 2 - 19 / 10 * (d / connectionDistance) := by
    intro d
    norm_num [connectionWeight, mapRange, connectionDistance]
    ring
  refine ⟨ha, hw, ?_, ?_, ?_, ?_, ?_⟩
  · norm_num [ha]
  · norm_num [ha, connectionDistance]
  · norm_num [hw]
  · norm_num [hw, connectionDistance]
  · intro d hd
    constructor
    · rw [ha, ha]
      norm_num [connectionDistance]
      positivity
    · rw [hw, hw]
      norm_num [connectionDistance]
      positivity

/-- Witness for the bounded part of C9 at distance 60. -/
theorem c9_connection_strength_witness :
    connectionAlpha 60 ≤ connectionAlpha 0 ∧
      connectionWeight 60 ≤ connectionWeight 0 :=
  c9_connection_strength.2.2.2.2.2.2 60 (by norm_num)

/-- Ten pops shorten the array by ten. -/
theorem removeTen_length {β : Type} (l : List β) :
    (removeTen l).length = l.length - 10 := by
  simp only [removeTen, List.range_succ, List.range_zero]
  simp [List.length_dropLast]
  omega

/-- C10: the remove command is a no-op exactly when executing it would
drop the particle count to or below the population floor (zero), and any
sequence of add and remove commands keeps the population strictly above
the floor whenever it starts strictly above it. -/
theorem c10_population_floor {β : Type} :
    (∀ l : List β, applyCommand l Command.remove = l ↔
      l.length - 10 ≤ populationFloor) ∧
    (∀ (l : List β) (cs : List (Command β)), populationFloor < l.length →
      populationFloor < (applyCommands l cs).length) := by
  constructor
  · intro l
    constructor
    · intro h
      by_contra hlen
      have hgt : 10 < l.length := by
        simp [populationFloor] at hlen
        omega
      have : (applyCommand l Command.remove).length = l.length - 10 := by
        simp [applyCommand, hgt, removeTen_length]
      rw [h] at this
      omega
    · intro h
      have : ¬ 10 < l.length := by
        simp [populationFloor] at h
        omega
      simp [applyCommand, this]
  · intro l cs
    induction cs generalizing l with
    | nil => intro h; simpa [applyCommands] using h
    | cons c cs ih =>
      intro h
      have hstep : populationFloor < (applyCommand l c).length := by
        cases c with
        | add ps =>
          simp only [applyCommand, List.length_append]
          simp [populationFloor] at h ⊢
          omega
        | remove =>
          by_cases hgt : 10 < l.length
          · simp only [applyCommand, if_pos hgt, removeTen_length]
            simp [populationFloor] at h ⊢
            omega
          · simpa [applyCommand, hgt] using h
      have : applyCommands l (c :: cs) = applyCommands (applyCommand l c) cs := by
        simp [applyCommands]
      rw [this]
      exact ih (applyCommand l c) hstep

/-- Witness for C10: a one-element population stays above the floor under
a remove command. -/
theorem c10_population_floor_witness :
    populationFloor < ([()] : List Unit).length ∧
      populationFloor < (applyCommands ([()] : List Unit) [Command.remove]).length :=
  ⟨by norm_num [populationFloor],
    c10_population_floor.2 [()] [Command.remove] (by norm_num [populationFloor])⟩

/-! ### Quadtree geometry lemmas -/

/-- A point in the northeast quadrant lies in the parent boundary. -/
theorem contains_of_neOf (b : Boundary α) (px py : α)
    (h : (neOf b).contains px py = true) : b.contains px py = true := by
  rw [contains_iff] at h ⊢
  obtain ⟨h1, h2, h3, h4⟩ := h
  simp only [neOf] at h1 h2 h3 h4
  exact ⟨by linarith, by linarith, by linarith, by linarith⟩

/-- A point in the northwest quadrant lies in the parent boundary. -/
theorem contains_of_nwOf (b : Boundary α) (px py : α)
    (h : (nwOf b).contains px py = true) : b.contains px py = true := by
  rw [contains_iff] at h ⊢
  obtain ⟨h1, h2, h3, h4⟩ := h
  simp only [nwOf] at h1 h2 h3 h4
  exact ⟨by linarith, by linarith, by linarith, by linarith⟩

/-- A point in the southeast quadrant lies in the parent boundary. -/
theorem contains_of_seOf (b : Boundary α) (px py : α)
    (h : (seOf b).contains px py = true) : b.contains px py = true := by
  rw [contains_iff] at h ⊢
  obtain ⟨h1, h2, h3, h4⟩ := h
  simp only [seOf] at h1 h2 h3 h4
  exact ⟨by linarith, by linarith, by linarith, by linarith⟩

/-- A point in the southwest quadrant lies in the parent boundary. -/
theorem contains_of_swOf (b : Boundary α) (px py : α)
    (h : (swOf b).contains px py = true) : b.contains px py = true := by
  rw [contains_iff] at h ⊢
  obtain ⟨h1, h2, h3, h4⟩ := h
  simp only [swOf] at h1 h2 h3 h4
  exact ⟨by linarith, by linarith, by linarith, by linarith⟩

/-- The four subdivide quadrants tile the parent: a point of the parent
boundary lies in one of them. -/
theorem contains_child_total (b : Boundary α) (px py : α)
    (h : b.contains px py = true) :
    (neOf b).contains px py = true ∨ (nwOf b).contains px py = true ∨
      (seOf b).contains px py = true ∨ (swOf b).contains px py = true := by
  rw [contains_iff] at h
  obtain ⟨h1, h2, h3, h4⟩ := h
  rcases le_or_lt b.x px with hx | hx <;> rcases le_or_lt b.y py with hy | hy
  · refine Or.inr (Or.inr (Or.inl ?_))
    rw [contains_iff]
    simp only [seOf]
    exact ⟨by linarith, by linarith, by linarith, by linarith⟩
  · refine Or.inl ?_
    rw [contains_iff]
    simp only [neOf]
    exact ⟨by linarith, by linarith, by linarith, by linarith⟩
  · refine Or.inr (Or.inr (Or.inr ?_))
    rw [contains_iff]
    simp only [swOf]
    exact ⟨by linarith, by linarith, by linarith, by linarith⟩
  · refine Or.inr (Or.inl ?_)
    rw [contains_iff]
    simp only [nwOf]
    exact ⟨by linarith, by linarith, by linarith, by linarith⟩

/-- Containment on the root boundary is the half-open domain test. -/
theorem rootBoundary_contains_iff (w h px py : α) :
    (rootBoundary w h).contains px py = true ↔
      0 ≤ px ∧ px < w ∧ 0 ≤ py ∧ py < h := by
  rw [contains_iff]
  simp only [rootBoundary]
  constructor
  · rintro ⟨h1, h2, h3, h4⟩
    exact ⟨by linarith, by linarith, by linarith, by linarith⟩
  · rintro ⟨h1, h2, h3, h4⟩
    exact ⟨by linarith, by linarith, by linarith, by linarith⟩

/-! ### Quadtree insertion lemmas -/

/-- Characterization of insertion into a fresh empty child. -/
theorem insertFresh_eq_some_iff (posOf : ℕ → α × α) (b : Boundary α)
    (cap : ℕ) (i : ℕ) (t : QuadTree α) :
    insertFresh posOf b cap i = some t ↔
      b.contains (posOf i).1 (posOf i).2 = true ∧ 0 < cap ∧
        t = QuadTree.leaf b cap [i] := by
  constructor
  · intro h
    by_cases hc : b.contains (posOf i).1 (posOf i).2 = true ∧ 0 < cap
    · obtain ⟨h1, h2⟩ := hc
      simp [insertFresh, h1, h2] at h
      exact ⟨h1, h2, h.symm⟩
    · exfalso
      rw [insertFresh] at h
      rcases Decidable.not_and_iff_or_not.mp hc with h1 | h2
      · simp [Bool.not_eq_true] at h1
        simp [h1] at h
      · simp at h2
        simp [h2] at h
  · rintro ⟨h1, h2, rfl⟩
    simp [insertFresh, h1, h2]

/-- Insertion fails on a point outside the node boundary. -/
theorem insert_eq_none_of_not_contains (posOf : ℕ → α × α) (t : QuadTree α)
    (i : ℕ) (h : t.boundary.contains (posOf i).1 (posOf i).2 = false) :
    t.insert posOf i = none := by
  cases t <;> simp_all [QuadTree.insert, QuadTree.boundary]

/-- Appending one element matches a multiset cons. -/
theorem coe_append_singleton (l : List ℕ) (a : ℕ) :
    ((l ++ [a] : List ℕ) : Multiset ℕ) = a ::ₘ (l : Multiset ℕ) := by
  rw [Multiset.cons_coe, Multiset.coe_eq_coe]
  exact List.perm_append_singleton a l

/-- What a successful insertion does: boundary and capacity are
unchanged, the stored multiset gains exactly the inserted point, and the
placement, uniform-capacity and size invariants are preserved. -/
theorem insert_some_spec (posOf : ℕ → α × α) (c : ℕ) (t : QuadTree α) :
    ∀ (t' : QuadTree α) (i : ℕ), t.insert posOf i = some t' →
      t'.boundary = t.boundary ∧ t'.capacity = t.capacity ∧
        t'.stored = i ::ₘ t.stored ∧
        (Placed posOf t → Placed posOf t') ∧
        (capAll c t → capAll c t') ∧
        (SizeInv t → SizeInv t') := by
  induction t with
  | leaf b cap pts =>
    intro t' i h
    simp only [QuadTree.insert] at h
    split at h
    case isFalse => exact absurd h (by simp)
    case isTrue hcont =>
      split at h
      case isTrue hlen =>
        obtain rfl := Option.some.inj h
        refine ⟨rfl, rfl, coe_append_singleton pts i, ?_, ?_, ?_⟩
        · intro hP j hj
          rcases List.mem_append.mp hj with hj | hj
          · exact hP j hj
          · simp only [List.mem_singleton] at hj
            subst hj
            exact hcont
        · exact id
        · intro hS
          simp only [SizeInv, List.length_append, List.length_singleton] at hS ⊢
          omega
      case isFalse hlen =>
        split at h
        case h_1 tne heq =>
          obtain ⟨hc1, hc2, rfl⟩ := (insertFresh_eq_some_iff posOf _ cap i tne).mp heq
          obtain rfl := Option.some.inj h
          refine ⟨rfl, rfl, ?_, ?_, ?_, ?_⟩
          · simp only [QuadTree.stored, emptyLeaf, Multiset.coe_nil, add_zero,
              Multiset.coe_singleton]
            rw [add_comm, Multiset.singleton_add]
          · intro hP
            refine ⟨hP, rfl, rfl, rfl, rfl, rfl, rfl, rfl, rfl, ?_, ?_, ?_, ?_⟩
            · intro j hj
              simp only [List.mem_singleton] at hj
              subst hj
              exact hc1
            · intro j hj
              exact absurd hj (List.not_mem_nil j)
            · intro j hj
              exact absurd hj (List.not_mem_nil j)
            · intro j hj
              exact absurd hj (List.not_mem_nil j)
          · intro hC
            exact ⟨hC, hC, hC, hC, hC⟩
          · intro hS
            simp only [SizeInv, emptyLeaf, List.length_singleton,
              List.length_nil] at hS ⊢
            omega
        case h_2 _ =>
          split at h
          case h_1 tnw heq =>
            obtain ⟨hc1, hc2, rfl⟩ := (insertFresh_eq_some_iff posOf _ cap i tnw).mp heq
            obtain rfl := Option.some.inj h
            refine ⟨rfl, rfl, ?_, ?_, ?_, ?_⟩
            · simp only [QuadTree.stored, emptyLeaf, Multiset.coe_nil, add_zero,
                Multiset.coe_singleton, zero_add]
              rw [add_comm, Multiset.singleton_add]
            · intro hP
              refine ⟨hP, rfl, rfl, rfl, rfl, rfl, rfl, rfl, rfl, ?_, ?_, ?_, ?_⟩
              · intro j hj
                exact absurd hj (List.not_mem_nil j)
              · intro j hj
                simp only [List.mem_singleton] at hj
                subst hj
                exact hc1
              · intro j hj
                exact absurd hj (List.not_mem_nil j)
              · intro j hj
                exact absurd hj (List.not_mem_nil j)
            · intro hC
              exact ⟨hC, hC, hC, hC, hC⟩
            · intro hS
              simp only [SizeInv, emptyLeaf, List.length_singleton,
                List.length_nil] at hS ⊢
              omega
          case h_2 _ =>
            split at h
            case h_1 tse heq =>
              obtain ⟨hc1, hc2, rfl⟩ := (insertFresh_eq_some_iff posOf _ cap i tse).mp heq
              obtain rfl := Option.some.inj h
              refine ⟨rfl, rfl, ?_, ?_, ?_, ?_⟩
              · simp only [QuadTree.stored, emptyLeaf, Multiset.coe_nil, add_zero,
                  Multiset.coe_singleton, zero_add]
                rw [add_comm, Multiset.singleton_add]
              · intro hP
                refine ⟨hP, rfl, rfl, rfl, rfl, rfl, rfl, rfl, rfl, ?_, ?_, ?_, ?_⟩
                · intro j hj
                  exact absurd hj (List.not_mem_nil j)
                · intro j hj
                  exact absurd hj (List.not_mem_nil j)
                · intro j hj
                  simp only [List.mem_singleton] at hj
                  subst hj
                  exact hc1
                · intro j hj
                  exact absurd hj (List.not_mem_nil j)
              · intro hC
                exact ⟨hC, hC, hC, hC, hC⟩
              · intro hS
                simp only [SizeInv, emptyLeaf, List.length_singleton,
                  List.length_nil] at hS ⊢
                omega
            case h_2 _ =>
              split at h
              case h_1 tsw heq =>
                obtain ⟨hc1, hc2, rfl⟩ := (insertFresh_eq_some_iff posOf _ cap i tsw).mp heq
                obtain rfl := Option.some.inj h
                refine ⟨rfl, rfl, ?_, ?_, ?_, ?_⟩
                · simp only [QuadTree.stored, emptyLeaf, Multiset.coe_nil, add_zero,
                    Multiset.coe_singleton, zero_add]
                  rw [add_comm, Multiset.singleton_add]
                · intro hP
                  refine ⟨hP, rfl, rfl, rfl, rfl, rfl, rfl, rfl, rfl, ?_, ?_, ?_, ?_⟩
                  · intro j hj
                    exact absurd hj (List.not_mem_nil j)
                  · intro j hj
                    exact absurd hj (List.not_mem_nil j)
                  · intro j hj
                    exact absurd hj (List.not_mem_nil j)
                  · intro j hj
                    simp only [List.mem_singleton] at hj
                    subst hj
                    exact hc1
                · intro hC
                  exact ⟨hC, hC, hC, hC, hC⟩
                · intro hS
                  simp only [SizeInv, emptyLeaf, List.length_singleton,
                    List.length_nil] at hS ⊢
                  omega
              case h_2 _ =>
                exact absurd h (by simp)
  | node b cap pts tne tnw tse tsw ihne ihnw ihse ihsw =>
    intro t' i h
    simp only [QuadTree.insert] at h
    split at h
    case isFalse => exact absurd h (by simp)
    case isTrue hcont =>
      split at h
      case isTrue hlen =>
        obtain rfl := Option.some.inj h
        refine ⟨rfl, rfl, ?_, ?_, ?_, ?_⟩
        · simp only [QuadTree.stored, coe_append_singleton, Multiset.cons_add]
        · rintro ⟨hpts, hbs⟩
          refine ⟨?_, hbs⟩
          intro j hj
          rcases List.mem_append.mp hj with hj | hj
          · exact hpts j hj
          · simp only [List.mem_singleton] at hj
            subst hj
            exact hcont
        · rintro ⟨h1, h2⟩
          exact ⟨h1, h2⟩
        · rintro ⟨h1, _⟩
          exact absurd hlen (by omega)
      case isFalse hlen =>
        split at h
        case h_1 t1 heq =>
          obtain ⟨hb, hc, hs, hP1, hC1, hS1⟩ := ihne t1 i heq
          obtain rfl := Option.some.inj h
          refine ⟨rfl, rfl, ?_, ?_, ?_, ?_⟩
          · simp only [QuadTree.stored, hs, Multiset.cons_add, Multiset.add_cons]
          · rintro ⟨hpts, hbne, hbnw, hbse, hbsw, hcne, hcnw, hcse, hcsw,
              hPne, hPnw, hPse, hPsw⟩
            exact ⟨hpts, hb.trans hbne, hbnw, hbse, hbsw, hc.trans hcne, hcnw,
              hcse, hcsw, hP1 hPne, hPnw, hPse, hPsw⟩
          · rintro ⟨h1, h2, h3, h4, h5⟩
            exact ⟨h1, hC1 h2, h3, h4, h5⟩
          · rintro ⟨h1, h2, h3, h4, h5⟩
            exact ⟨h1, hS1 h2, h3, h4, h5⟩
        case h_2 _ =>
          split at h
          case h_1 t1 heq =>
            obtain ⟨hb, hc, hs, hP1, hC1, hS1⟩ := ihnw t1 i heq
            obtain rfl := Option.some.inj h
            refine ⟨rfl, rfl, ?_, ?_, ?_, ?_⟩
            · simp only [QuadTree.stored, hs, Multiset.cons_add, Multiset.add_cons]
            · rintro ⟨hpts, hbne, hbnw, hbse, hbsw, hcne, hcnw, hcse, hcsw,
                hPne, hPnw, hPse, hPsw⟩
              exact ⟨hpts, hbne, hb.trans hbnw, hbse, hbsw, hcne, hc.trans hcnw,
                hcse, hcsw, hPne, hP1 hPnw, hPse, hPsw⟩
            · rintro ⟨h1, h2, h3, h4, h5⟩
              exact ⟨h1, h2, hC1 h3, h4, h5⟩
            · rintro ⟨h1, h2, h3, h4, h5⟩
              exact ⟨h1, h2, hS1 h3, h4, h5⟩
          case h_2 _ =>
            split at h
            case h_1 t1 heq =>
              obtain ⟨hb, hc, hs, hP1, hC1, hS1⟩ := ihse t1 i heq
              obtain rfl := Option.some.inj h
              refine ⟨rfl, rfl, ?_, ?_, ?_, ?_⟩
              · simp only [QuadTree.stored, hs, Multiset.cons_add, Multiset.add_cons]
              · rintro ⟨hpts, hbne, hbnw, hbse, hbsw, hcne, hcnw, hcse, hcsw,
                  hPne, hPnw, hPse, hPsw⟩
                exact ⟨hpts, hbne, hbnw, hb.trans hbse, hbsw, hcne, hcnw,
                  hc.trans hcse, hcsw, hPne, hPnw, hP1 hPse, hPsw⟩
              · rintro ⟨h1, h2, h3, h4, h5⟩
                exact ⟨h1, h2, h3, hC1 h4, h5⟩
              · rintro ⟨h1, h2, h3, h4, h5⟩
                exact ⟨h1, h2, h3, hS1 h4, h5⟩
            case h_2 _ =>
              split at h
              case h_1 t1 heq =>
                obtain ⟨hb, hc, hs, hP1, hC1, hS1⟩ := ihsw t1 i heq
                obtain rfl := Option.some.inj h
                refine ⟨rfl, rfl, ?_, ?_, ?_, ?_⟩
                · simp only [QuadTree.stored, hs, Multiset.cons_add,
                    Multiset.add_cons]
                · rintro ⟨hpts, hbne, hbnw, hbse, hbsw, hcne, hcnw, hcse, hcsw,
                    hPne, hPnw, hPse, hPsw⟩
                  exact ⟨hpts, hbne, hbnw, hbse, hb.trans hbsw, hcne, hcnw,
                    hcse, hc.trans hcsw, hPne, hPnw, hPse, hP1 hPsw⟩
                · rintro ⟨h1, h2, h3, h4, h5⟩
                  exact ⟨h1, h2, h3, h4, hC1 h5⟩
                · rintro ⟨h1, h2, h3, h4, h5⟩
                  exact ⟨h1, h2, h3, h4, hS1 h5⟩
              case h_2 _ =>
                exact absurd h (by simp)

/-- On trees with the sketch invariants and positive capacity, insertion
succeeds on every point the node boundary contains. -/
theorem insert_isSome (posOf : ℕ → α × α) (c : ℕ) (hc : 0 < c)
    (t : QuadTree α) (hP : Placed posOf t) (hC : capAll c t) (i : ℕ)
    (hcont : t.boundary.contains (posOf i).1 (posOf i).2 = true) :
    (t.insert posOf i).isSome = true := by
  induction t with
  | leaf b cap pts =>
    simp only [QuadTree.boundary] at hcont
    simp only [capAll] at hC
    have hcap : 0 < cap := by rw [hC]; exact hc
    simp only [QuadTree.insert, hcont, if_true]
    by_cases hlen : pts.length < cap
    · simp [hlen]
    · simp only [if_neg hlen]
      cases hne : insertFresh posOf (neOf b) cap i with
      | some t1 => simp
      | none =>
        cases hnw : insertFresh posOf (nwOf b) cap i with
        | some t1 => simp
        | none =>
          cases hse : insertFresh posOf (seOf b) cap i with
          | some t1 => simp
          | none =>
            cases hsw : insertFresh posOf (swOf b) cap i with
            | some t1 => simp
            | none =>
              exfalso
              rcases contains_child_total b _ _ hcont with h | h | h | h
              · simp [insertFresh, h, hcap] at hne
              · simp [insertFresh, h, hcap] at hnw
              · simp [insertFresh, h, hcap] at hse
              · simp [insertFresh, h, hcap] at hsw
  | node b cap pts tne tnw tse tsw ihne ihnw ihse ihsw =>
    simp only [QuadTree.boundary] at hcont
    obtain ⟨hcap, hCne, hCnw, hCse, hCsw⟩ := hC
    obtain ⟨hpts, hbne, hbnw, hbse, hbsw, _, _, _, _, hPne, hPnw, hPse, hPsw⟩ := hP
    simp only [QuadTree.insert, hcont, if_true]
    by_cases hlen : pts.length < cap
    · simp [hlen]
    · simp only [if_neg hlen]
      cases hne : tne.insert posOf i with
      | some t1 => simp
      | none =>
        cases hnw : tnw.insert posOf i with
        | some t1 => simp
        | none =>
          cases hse : tse.insert posOf i with
          | some t1 => simp
          | none =>
            cases hsw : tsw.insert posOf i with
            | some t1 => simp
            | none =>
              exfalso
              rcases contains_child_total b _ _ hcont with h | h | h | h
              · have := ihne hPne hCne (by rw [hbne]; exact h)
                simp [hne] at this
              · have := ihnw hPnw hCnw (by rw [hbnw]; exact h)
                simp [hnw] at this
              · have := ihse hPse hCse (by rw [hbse]; exact h)
                simp [hse] at this
              · have := ihsw hPsw hCsw (by rw [hbsw]; exact h)
                simp [hsw] at this

/-- Every point stored anywhere in a well-placed tree lies inside the
boundary of that tree's root node. -/
theorem stored_contains (posOf : ℕ → α × α) (t : QuadTree α)
    (hP : Placed posOf t) (j : ℕ) (hj : j ∈ t.stored) :
    t.boundary.contains (posOf j).1 (posOf j).2 = true := by
  induction t with
  | leaf b cap pts =>
    simp only [QuadTree.stored, Multiset.mem_coe] at hj
    exact hP j hj
  | node b cap pts tne tnw tse tsw ihne ihnw ihse ihsw =>
    obtain ⟨hpts, hbne, hbnw, hbse, hbsw, _, _, _, _, hPne, hPnw, hPse, hPsw⟩ := hP
    simp only [QuadTree.stored, Multiset.mem_add, Multiset.mem_coe] at hj
    simp only [QuadTree.boundary]
    rcases hj with ((((hj | hj) | hj) | hj) | hj)
    · exact hpts j hj
    · have h := ihne hPne hj
      rw [hbne] at h
      exact contains_of_neOf b _ _ h
    · have h := ihnw hPnw hj
      rw [hbnw] at h
      exact contains_of_nwOf b _ _ h
    · have h := ihse hPse hj
      rw [hbse] at h
      exact contains_of_seOf b _ _ h
    · have h := ihsw hPsw hj
      rw [hbsw] at h
      exact contains_of_swOf b _ _ h

/-- A node whose boundary fails the broad-phase test holds no stored
point (under its placement lookup) strictly within the region. -/
theorem not_hit_of_not_intersects (posOf : ℕ → α × α) (t : QuadTree α)
    (c : Circle α) (hP : Placed posOf t) (j : ℕ) (hj : j ∈ t.stored)
    (hint : ¬ t.boundary.intersects c = true) :
    ¬ distLt c.x c.y (posOf j).1 (posOf j).2 c.r = true := by
  intro hdist
  apply hint
  have hcont := stored_contains posOf t hP j hj
  rw [contains_iff] at hcont
  rw [distLt_iff] at hdist
  exact intersects_of_closeMember t.boundary c (posOf j).1 (posOf j).2
    hcont.1 (le_of_lt hcont.2.1) hcont.2.2.1 (le_of_lt hcont.2.2.2)
    hdist.1 (le_of_lt hdist.2)

/-- Query soundness: any index returned by a query is stored in the tree
and its read position is strictly within the region. -/
theorem mem_query_sound (posOf2 : ℕ → α × α) (t : QuadTree α)
    (c : Circle α) (j : ℕ) (h : j ∈ t.query posOf2 c) :
    j ∈ t.stored ∧ distLt c.x c.y (posOf2 j).1 (posOf2 j).2 c.r = true := by
  induction t with
  | leaf b cap pts =>
    simp only [QuadTree.query] at h
    split at h
    case isTrue hint =>
      rw [List.mem_filter] at h
      exact ⟨by simpa [QuadTree.stored] using h.1, h.2⟩
    case isFalse hint => exact absurd h (List.not_mem_nil j)
  | node b cap pts tne tnw tse tsw ihne ihnw ihse ihsw =>
    simp only [QuadTree.query] at h
    split at h
    case isTrue hint =>
      simp only [List.mem_append] at h
      rcases h with ((((h | h) | h) | h) | h)
      · rw [List.mem_filter] at h
        refine ⟨?_, h.2⟩
        simp only [QuadTree.stored, Multiset.mem_add, Multiset.mem_coe]
        exact Or.inl (Or.inl (Or.inl (Or.inl h.1)))
      · obtain ⟨hst, hd⟩ := ihne h
        refine ⟨?_, hd⟩
        simp only [QuadTree.stored, Multiset.mem_add]
        exact Or.inl (Or.inl (Or.inl (Or.inr hst)))
      · obtain ⟨hst, hd⟩ := ihnw h
        refine ⟨?_, hd⟩
        simp only [QuadTree.stored, Multiset.mem_add]
        exact Or.inl (Or.inl (Or.inr hst))
      · obtain ⟨hst, hd⟩ := ihse h
        refine ⟨?_, hd⟩
        simp only [QuadTree.stored, Multiset.mem_add]
        exact Or.inl (Or.inr hst)
      · obtain ⟨hst, hd⟩ := ihsw h
        refine ⟨?_, hd⟩
        simp only [QuadTree.stored, Multiset.mem_add]
        exact Or.inr hst
    case isFalse hint => exact absurd h (List.not_mem_nil j)

/-- Query completeness: a stored index whose read position agrees with
its placement position and lies strictly within the region is returned
by the query. -/
theorem mem_query_complete (posOf posOf2 : ℕ → α × α) (t : QuadTree α)
    (c : Circle α) (hP : Placed posOf t) (j : ℕ) (hj : posOf2 j = posOf j)
    (hst : j ∈ t.stored)
    (hd : distLt c.x c.y (posOf2 j).1 (posOf2 j).2 c.r = true) :
    j ∈ t.query posOf2 c := by
  induction t with
  | leaf b cap pts =>
    have hint : (QuadTree.leaf b cap pts).boundary.intersects c = true := by
      by_contra hint
      rw [hj] at hd
      exact not_hit_of_not_intersects posOf _ c hP j hst hint hd
    simp only [QuadTree.boundary] at hint
    simp only [QuadTree.query, hint, if_true]
    rw [List.mem_filter]
    exact ⟨by simpa [QuadTree.stored] using hst, hd⟩
  | node b cap pts tne tnw tse tsw ihne ihnw ihse ihsw =>
    have hint : (QuadTree.node b cap pts tne tnw tse tsw).boundary.intersects
        c = true := by
      by_contra hint
      rw [hj] at hd
      exact not_hit_of_not_intersects posOf _ c hP j hst hint hd
    simp only [QuadTree.boundary] at hint
    obtain ⟨hpts, hbne, hbnw, hbse, hbsw, _, _, _, _, hPne, hPnw, hPse, hPsw⟩ := hP
    simp only [QuadTree.query, hint, if_true]
    simp only [QuadTree.stored, Multiset.mem_add, Multiset.mem_coe] at hst
    simp only [List.mem_append]
    rcases hst with ((((h | h) | h) | h) | h)
    · exact Or.inl (Or.inl (Or.inl (Or.inl (List.mem_filter.mpr ⟨h, hd⟩))))
    · exact Or.inl (Or.inl (Or.inl (Or.inr (ihne hPne h))))
    · exact Or.inl (Or.inl (Or.inr (ihnw hPnw h)))
    · exact Or.inl (Or.inr (ihse hPse h))
    · exact Or.inr (ihsw hPsw h)


/-- Query as a multiset: with the same lookup for placement and reading,
a query returns exactly the stored points strictly within the region,
each with its stored multiplicity. -/
theorem query_coe_eq (posOf : ℕ → α × α) (t : QuadTree α) (c : Circle α)
    (hP : Placed posOf t) :
    ((t.query posOf c : List ℕ) : Multiset ℕ) =
      t.stored.filter
        (fun j => distLt c.x c.y (posOf j).1 (posOf j).2 c.r = true) := by
  induction t with
  | leaf b cap pts =>
    simp only [QuadTree.query, QuadTree.stored]
    split
    case isTrue hint =>
      rw [Multiset.filter_coe]
      simp
    case isFalse hint =>
      refine Eq.symm ?_
      rw [Multiset.filter_eq_nil.mpr]
      · rfl
      · intro j hj
        exact not_hit_of_not_intersects posOf (QuadTree.leaf b cap pts) c hP
          j hj (by simpa [QuadTree.boundary] using hint)
  | node b cap pts tne tnw tse tsw ihne ihnw ihse ihsw =>
    have hP' := hP
    obtain ⟨hpts, hbne, hbnw, hbse, hbsw, _, _, _, _, hPne, hPnw, hPse, hPsw⟩ := hP'
    simp only [QuadTree.query, QuadTree.stored]
    split
    case isTrue hint =>
      rw [← Multiset.coe_add, ← Multiset.coe_add, ← Multiset.coe_add,
        ← Multiset.coe_add, Multiset.filter_add, Multiset.filter_add,
        Multiset.filter_add, Multiset.filter_add, ihne hPne, ihnw hPnw,
        ihse hPse, ihsw hPsw, Multiset.filter_coe]
      simp
    case isFalse hint =>
      refine Eq.symm ?_
      rw [Multiset.filter_eq_nil.mpr]
      · rfl
      · intro j hj
        exact not_hit_of_not_intersects posOf
          (QuadTree.node b cap pts tne tnw tse tsw) c hP j
          (by simpa [QuadTree.stored] using hj)
          (by simpa [QuadTree.boundary] using hint)

/-- Folding the draw-loop insertions (failures ignored) keeps the
boundary and all invariants, and stores exactly the incoming indices the
root boundary contains, in addition to what was already stored. -/
theorem foldl_insertOrKeep_spec (posOf : ℕ → α × α) (c : ℕ) (hc : 0 < c) :
    ∀ (is : List ℕ) (t : QuadTree α), Placed posOf t → capAll c t →
      SizeInv t →
      (is.foldl (insertOrKeep posOf) t).boundary = t.boundary ∧
        Placed posOf (is.foldl (insertOrKeep posOf) t) ∧
        capAll c (is.foldl (insertOrKeep posOf) t) ∧
        SizeInv (is.foldl (insertOrKeep posOf) t) ∧
        (is.foldl (insertOrKeep posOf) t).stored =
          t.stored + ↑(is.filter fun i =>
            t.boundary.contains (posOf i).1 (posOf i).2) := by
  intro is
  induction is with
  | nil =>
    intro t hP hC hS
    exact ⟨rfl, hP, hC, hS, by simp⟩
  | cons i is ih =>
    intro t hP hC hS
    simp only [List.foldl_cons]
    rcases hins : t.insert posOf i with _ | t1
    · have hcont : t.boundary.contains (posOf i).1 (posOf i).2 = false := by
        by_contra hcont
        have hcont' : t.boundary.contains (posOf i).1 (posOf i).2 = true := by
          simpa using hcont
        have := insert_isSome posOf c hc t hP hC i hcont'
        rw [hins] at this
        simp at this
      have hkeep : insertOrKeep posOf t i = t := by
        simp [insertOrKeep, hins]
      rw [hkeep]
      obtain ⟨hb, hP2, hC2, hS2, hst⟩ := ih t hP hC hS
      refine ⟨hb, hP2, hC2, hS2, ?_⟩
      rw [hst, List.filter_cons]
      simp [hcont]
    · have hkeep : insertOrKeep posOf t i = t1 := by
        simp [insertOrKeep, hins]
      rw [hkeep]
      obtain ⟨hb1, hc1, hs1, hP1, hC1, hS1⟩ := insert_some_spec posOf c t t1 i hins
      have hcont : t.boundary.contains (posOf i).1 (posOf i).2 = true := by
        by_contra hcont
        have hcont' : t.boundary.contains (posOf i).1 (posOf i).2 = false := by
          simpa using hcont
        rw [insert_eq_none_of_not_contains posOf t i hcont'] at hins
        exact absurd hins (by simp)
      obtain ⟨hb, hP2, hC2, hS2, hst⟩ := ih t1 (hP1 hP) (hC1 hC) (hS1 hS)
      refine ⟨hb.trans hb1, hP2, hC2, hS2, ?_⟩
      rw [hst, hs1, hb1, List.filter_cons]
      simp only [hcont, if_true]
      rw [← Multiset.cons_coe, Multiset.cons_add, Multiset.add_cons]

/-- The per-frame tree (capacity 4 on the root boundary, all indices
inserted in order) satisfies the invariants and stores exactly the
indices whose position the root boundary contains. -/
theorem buildTree_spec (posOf : ℕ → α × α) (w h : α) (n : ℕ) :
    (buildTree posOf w h n).boundary = rootBoundary w h ∧
      Placed posOf (buildTree posOf w h n) ∧
      capAll 4 (buildTree posOf w h n) ∧
      SizeInv (buildTree posOf w h n) ∧
      (buildTree posOf w h n).stored =
        ↑((List.range n).filter fun i =>
          (rootBoundary w h).contains (posOf i).1 (posOf i).2) := by
  have base1 : Placed posOf (emptyLeaf (rootBoundary w h) 4 : QuadTree α) := by
    intro j hj
    exact absurd hj (List.not_mem_nil j)
  have base2 : capAll 4 (emptyLeaf (rootBoundary w h) 4 : QuadTree α) := rfl
  have base3 : SizeInv (emptyLeaf (rootBoundary w h) 4 : QuadTree α) := by
    simp [SizeInv, emptyLeaf]
  obtain ⟨hb, hP, hC, hS, hst⟩ := foldl_insertOrKeep_spec posOf 4
    (by norm_num) (List.range n) (emptyLeaf (rootBoundary w h) 4)
    base1 base2 base3
  refine ⟨hb, hP, hC, hS, ?_⟩
  simp only [buildTree]
  rw [hst]
  simp [emptyLeaf, QuadTree.stored, QuadTree.boundary]

/-- Membership in the per-frame tree. -/
theorem mem_buildTree_stored_iff (posOf : ℕ → α × α) (w h : α) (n j : ℕ) :
    j ∈ (buildTree posOf w h n).stored ↔
      j < n ∧ (rootBoundary w h).contains (posOf j).1 (posOf j).2 = true := by
  rw [(buildTree_spec posOf w h n).2.2.2.2, Multiset.mem_coe,
    List.mem_filter, List.mem_range]

/-- The per-frame tree stores every index at most once. -/
theorem buildTree_stored_nodup (posOf : ℕ → α × α) (w h : α) (n : ℕ) :
    (buildTree posOf w h n).stored.Nodup := by
  rw [(buildTree_spec posOf w h n).2.2.2.2, Multiset.coe_nodup]
  exact (List.nodup_range n).filter _

/-- Membership in the indexed connection pairs of a fixed particle
state: pair (i, j) is emitted exactly when both indices are in range,
i is below j, particle j made it into the tree (its position is inside
the half-open root boundary), and the distance is below the radius. -/
theorem mem_indexedPairs_iff (posOf : ℕ → α × α) (n : ℕ) (w h r : α)
    (i j : ℕ) :
    (i, j) ∈ indexedPairs posOf n w h r ↔
      i < n ∧ j < n ∧ i < j ∧
        (rootBoundary w h).contains (posOf j).1 (posOf j).2 = true ∧
        distLt (posOf i).1 (posOf i).2 (posOf j).1 (posOf j).2 r = true := by
  simp only [indexedPairs, List.mem_flatMap, List.mem_map, List.mem_filter,
    List.mem_range, Bool.and_eq_true, decide_eq_true_eq, Prod.mk.injEq]
  constructor
  · rintro ⟨a, ha, b, ⟨⟨hbq, hab, hd⟩, rfl, rfl⟩⟩
    obtain ⟨hst, _⟩ := mem_query_sound posOf _ _ b hbq
    rw [mem_buildTree_stored_iff] at hst
    exact ⟨ha, hst.1, hab, hst.2, hd⟩
  · rintro ⟨hi, hjn, hij, hcont, hd⟩
    refine ⟨i, hi, j, ⟨⟨?_, hij, hd⟩, rfl, rfl⟩⟩
    refine mem_query_complete posOf posOf _ _ (buildTree_spec posOf w h n).2.1
      j rfl ?_ ?_
    · rw [mem_buildTree_stored_iff]
      exact ⟨hjn, hcont⟩
    · exact hd

/-- Membership in the brute-force connection pairs. -/
theorem mem_brutePairs_iff (posOf : ℕ → α × α) (n : ℕ) (r : α) (i j : ℕ) :
    (i, j) ∈ brutePairs posOf n r ↔
      i < n ∧ j < n ∧ i < j ∧
        distLt (posOf i).1 (posOf i).2 (posOf j).1 (posOf j).2 r = true := by
  simp only [brutePairs, List.mem_flatMap, List.mem_map, List.mem_filter,
    List.mem_range, Bool.and_eq_true, decide_eq_true_eq, Prod.mk.injEq]
  constructor
  · rintro ⟨a, ha, b, ⟨⟨hbn, hab, hd⟩, rfl, rfl⟩⟩
    exact ⟨ha, hbn, hab, hd⟩
  · rintro ⟨hi, hjn, hij, hd⟩
    exact ⟨i, hi, j, ⟨⟨hjn, hij, hd⟩, rfl, rfl⟩⟩

/-- C1 (amended): whenever every particle position lies inside the
half-open root boundary of the index (0 <= x < width and 0 <= y < height),
one frame's neighbor discovery through the quadtree emits exactly the
same set of unordered connection pairs as the brute-force all-pairs scan
on the same particle state. The counterexample shows the paths disagree
at a position x = width, which the edge reset of the claimed domain can
produce. -/
theorem c1_index_bruteforce_equiv (posOf : ℕ → ℚ × ℚ) (n : ℕ) (w h r : ℚ)
    (hin : ∀ i, i < n →
      (rootBoundary w h).contains (posOf i).1 (posOf i).2 = true) :
    ∀ pr : ℕ × ℕ, pr ∈ indexedPairs posOf n w h r ↔
      pr ∈ brutePairs posOf n r := by
  rintro ⟨i, j⟩
  rw [mem_indexedPairs_iff, mem_brutePairs_iff]
  constructor
  · rintro ⟨h1, h2, h3, _, h5⟩
    exact ⟨h1, h2, h3, h5⟩
  · rintro ⟨h1, h2, h3, h4⟩
    exact ⟨h1, h2, h3, hin j h2, h4⟩

/-- Witness for C1 on a concrete two-particle in-domain state. -/
theorem c1_index_bruteforce_equiv_witness :
    (∀ i, i < 2 → (rootBoundary (200 : ℚ) 200).contains
        ((if i = 0 then (10, 10) else (60, 10) : ℚ × ℚ)).1
        ((if i = 0 then (10, 10) else (60, 10) : ℚ × ℚ)).2 = true) ∧
      (∀ pr : ℕ × ℕ,
        pr ∈ indexedPairs
          (fun k : ℕ => if k = 0 then ((10 : ℚ), 10) else (60, 10))
          2 200 200 120 ↔
        pr ∈ brutePairs
          (fun k : ℕ => if k = 0 then ((10 : ℚ), 10) else (60, 10))
          2 120) := by
  have hin : ∀ i, i < 2 → (rootBoundary (200 : ℚ) 200).contains
      ((if i = 0 then (10, 10) else (60, 10) : ℚ × ℚ)).1
      ((if i = 0 then (10, 10) else (60, 10) : ℚ × ℚ)).2 = true := by
    intro i hi
    interval_cases i <;> norm_num [rootBoundary, Boundary.contains]
  exact ⟨hin, c1_index_bruteforce_equiv _ 2 200 200 120 hin⟩

/-- C1 counterexample: particle 1 sits exactly at x = width (the value
the edge reset assigns); the brute-force path emits the pair (0, 1) but
the indexed path drops particle 1 at insertion and misses the pair. -/
theorem c1_counterexample :
    (0, 1) ∈ brutePairs
      (fun k : ℕ => if k = 0 then ((100 : ℚ), 50) else (200, 50)) 2 120 ∧
    (0, 1) ∉ indexedPairs
      (fun k : ℕ => if k = 0 then ((100 : ℚ), 50) else (200, 50))
      2 200 200 120 := by
  constructor
  · rw [mem_brutePairs_iff]
    norm_num [distLt]
  · rw [mem_indexedPairs_iff]
    norm_num [rootBoundary, Boundary.contains]

/-- C8: on a fixed particle state, both the indexed and the brute-force
paths emit only pairs (i, j) with i < j - hence never a self pair (i, i)
and never both orientations (i, j) and (j, i) - and neither path emits
any pair more than once. -/
theorem c8_pair_uniqueness (posOf : ℕ → ℚ × ℚ) (n : ℕ) (w h r : ℚ) :
    (∀ pr ∈ indexedPairs posOf n w h r, pr.1 < pr.2) ∧
      (indexedPairs posOf n w h r).Nodup ∧
      (∀ pr ∈ brutePairs posOf n r, pr.1 < pr.2) ∧
      (brutePairs posOf n r).Nodup := by
  refine ⟨?_, ?_, ?_, ?_⟩
  · rintro ⟨i, j⟩ hm
    exact ((mem_indexedPairs_iff posOf n w h r i j).mp hm).2.2.1
  · rw [indexedPairs, List.nodup_flatMap]
    constructor
    · intro i hi
      refine List.Nodup.map ?_ ?_
      · intro a b hab
        simpa using hab
      · refine List.Nodup.filter _ ?_
        rw [← Multiset.coe_nodup,
          query_coe_eq posOf _ _ (buildTree_spec posOf w h n).2.1]
        exact (buildTree_stored_nodup posOf w h n).filter _
    · refine List.Pairwise.imp ?_ (List.pairwise_lt_range n)
      intro a b hab x hxa hxb
      obtain ⟨ja, _, rfl⟩ := List.mem_map.mp hxa
      obtain ⟨jb, _, heq⟩ := List.mem_map.mp hxb
      simp only [Prod.mk.injEq] at heq
      omega
  · rintro ⟨i, j⟩ hm
    exact ((mem_brutePairs_iff posOf n r i j).mp hm).2.2.1
  · rw [brutePairs, List.nodup_flatMap]
    constructor
    · intro i hi
      refine List.Nodup.map ?_ ?_
      · intro a b hab
        simpa using hab
      · exact (List.nodup_range n).filter _
    · refine List.Pairwise.imp ?_ (List.pairwise_lt_range n)
      intro a b hab x hxa hxb
      obtain ⟨ja, _, rfl⟩ := List.mem_map.mp hxa
      obtain ⟨jb, _, heq⟩ := List.mem_map.mp hxb
      simp only [Prod.mk.injEq] at heq
      omega

/-- C4 (amended): for every tree reachable by a sequence of insert calls
on a fresh root with positive capacity, every node is either undivided
holding at most capacity particles, or divided holding exactly capacity
particles directly - the four pre-subdivision particles are kept, not
zero - while further insertions delegate to the children. -/
theorem c4_node_size_invariant (posOf : ℕ → ℚ × ℚ) (b : Boundary ℚ)
    (c : ℕ) (is : List ℕ) :
    SizeInv (is.foldl (insertOrKeep posOf) (emptyLeaf b c)) := by
  have main : ∀ (js : List ℕ) (t : QuadTree ℚ), SizeInv t → capAll c t →
      SizeInv (js.foldl (insertOrKeep posOf) t) ∧
        capAll c (js.foldl (insertOrKeep posOf) t) := by
    intro js
    induction js with
    | nil =>
      intro t hS hC
      exact ⟨hS, hC⟩
    | cons j js ih =>
      intro t hS hC
      simp only [List.foldl_cons]
      rcases hins : t.insert posOf j with _ | t1
      · have hk : insertOrKeep posOf t j = t := by
          simp [insertOrKeep, hins]
        rw [hk]
        exact ih t hS hC
      · have hk : insertOrKeep posOf t j = t1 := by
          simp [insertOrKeep, hins]
        rw [hk]
        obtain ⟨_, _, _, _, hC1, hS1⟩ := insert_some_spec posOf c t t1 j hins
        exact ih t1 (hS1 hS) (hC1 hC)
  exact (main is (emptyLeaf b c) (by simp [SizeInv, emptyLeaf]) rfl).1

/-- C4 counterexample: inserting five particles at the same position into
the capacity-4 frame tree subdivides the root, which keeps holding its
four pre-subdivision particles - not zero particles as claimed. -/
theorem c4_counterexample :
    (buildTree (fun _ : ℕ => ((10 : ℚ), 10)) 100 100 5).divided = true ∧
      (buildTree (fun _ : ℕ => ((10 : ℚ), 10)) 100 100 5).heldPoints =
        [0, 1, 2, 3] := by
  norm_num [buildTree, List.range_succ, insertOrKeep, QuadTree.insert,
    insertFresh, emptyLeaf, rootBoundary, Boundary.contains, neOf, nwOf,
    seOf, swOf, QuadTree.divided, QuadTree.heldPoints]

/-- C3: a particle whose x coordinate falls below zero during an update
is reset exactly to the domain width (here x = -2 becomes 400); the root
boundary of the index is half-open and rejects x = width, so
QuadTree.insert returns failure for that particle and it is silently
dropped from the index instead of being accepted as the claim requires. -/
theorem c3_boundary_particle_dropped :
    ((⟨-3, 10, 1, 0, 0, 0, 0, 0, 0, 0, 0⟩ : Particle).update false 0 0 false
        0 1 0 400 300).px = 400 ∧
      (rootBoundary (400 : ℝ) 300).contains 400 150 = false ∧
      (emptyLeaf (rootBoundary (400 : ℚ) 300) 4).insert
        (fun _ => ((400 : ℚ), 150)) 0 = none := by
  refine ⟨?_, ?_, ?_⟩
  · norm_num [Particle.update, pointerAcc, limitVec, wrapCoord, maxSpeed]
  · norm_num [rootBoundary, Boundary.contains]
  · norm_num [QuadTree.insert, emptyLeaf, rootBoundary, Boundary.contains]

/-! ### Motion model invariants -/

/-- p5.Vector.limit bounds the squared magnitude by m squared when m is
nonnegative. -/
theorem limitVec_sq_le (vx vy m : ℝ) (_hm : 0 ≤ m) :
    (limitVec vx vy m).1 ^ 2 + (limitVec vx vy m).2 ^ 2 ≤ m ^ 2 := by
  rw [limitVec]
  split
  case isTrue hgt =>
    have hq : (0 : ℝ) < vx * vx + vy * vy :=
      lt_of_le_of_lt (mul_self_nonneg m) hgt
    have hss : Real.sqrt (vx * vx + vy * vy) ^ 2 = vx * vx + vy * vy :=
      Real.sq_sqrt hq.le
    have hs0 : Real.sqrt (vx * vx + vy * vy) ≠ 0 := by
      have := Real.sqrt_pos.mpr hq
      linarith
    have key : (vx / Real.sqrt (vx * vx + vy * vy) * m) ^ 2 +
        (vy / Real.sqrt (vx * vx + vy * vy) * m) ^ 2 = m ^ 2 := by
      field_simp
      nlinarith [hss]
    calc (vx / Real.sqrt (vx * vx + vy * vy) * m, vy /
          Real.sqrt (vx * vx + vy * vy) * m).1 ^ 2 +
          (vx / Real.sqrt (vx * vx + vy * vy) * m, vy /
          Real.sqrt (vx * vx + vy * vy) * m).2 ^ 2
        = m ^ 2 := key
      _ ≤ m ^ 2 := le_refl _
  case isFalse hle =>
    have : vx * vx + vy * vy ≤ m * m := le_of_not_lt hle
    nlinarith [this]

/-- After the drag factor 0.99, the limited velocity keeps magnitude at
most m. -/
theorem sqrt_drag_le (vx vy m : ℝ) (hm : 0 ≤ m) :
    Real.sqrt (((limitVec vx vy m).1 * 0.99) ^ 2 +
      ((limitVec vx vy m).2 * 0.99) ^ 2) ≤ m := by
  have h1 := limitVec_sq_le vx vy m hm
  have h2 : ((limitVec vx vy m).1 * 0.99) ^ 2 +
      ((limitVec vx vy m).2 * 0.99) ^ 2 ≤ m ^ 2 := by
    nlinarith [sq_nonneg (limitVec vx vy m).1, sq_nonneg (limitVec vx vy m).2]
  calc Real.sqrt (((limitVec vx vy m).1 * 0.99) ^ 2 +
        ((limitVec vx vy m).2 * 0.99) ^ 2)
      ≤ Real.sqrt (m ^ 2) := Real.sqrt_le_sqrt h2
    _ = m := Real.sqrt_sq hm

/-- The JavaScript remainder of a nonnegative dividend by a positive
divisor lies in the half-open interval from zero to the divisor. -/
theorem jsMod_nonneg_lt (a b : ℝ) (ha : 0 ≤ a) (hb : 0 < b) :
    0 ≤ jsMod a b ∧ jsMod a b < b := by
  have hdiv : 0 ≤ a / b := div_nonneg ha hb.le
  rw [jsMod, jsTrunc, if_pos hdiv]
  have heq : a - b * (⌊a / b⌋ : ℝ) = b * Int.fract (a / b) := by
    rw [Int.fract]
    field_simp
  rw [heq]
  constructor
  · exact mul_nonneg hb.le (Int.fract_nonneg _)
  · calc b * Int.fract (a / b) < b * 1 :=
        mul_lt_mul_of_pos_left (Int.fract_lt_one _) hb
      _ = b := mul_one b

/-- The edge reset keeps a coordinate inside the closed interval from
zero to the domain maximum. -/
theorem wrapCoord_mem (m x : ℝ) (hm : 0 ≤ m) :
    0 ≤ wrapCoord m x ∧ wrapCoord m x ≤ m := by
  rw [wrapCoord]
  split_ifs with h1 h2
  · exact ⟨hm, le_refl m⟩
  · exact ⟨le_refl 0, hm⟩
  · constructor <;> linarith

/-- C7: after any Particle.update call on nonnegative domain extents and
a particle with nonnegative hue, the velocity magnitude is at most the
configured maximum, the hue lies in the interval from 0 inclusive to 360
exclusive, and the position lies inside the closed domain rectangle: the
edge reset assigns the domain maximum to a coordinate that fell below
zero and zero to one that exceeded the maximum - a discrete reset, not a
modulo wrap. -/
theorem c7_update_invariants (mousePressed : Bool) (mouseX mouseY : ℝ)
    (repulsion : Bool) (randX randY : ℝ) (frameCount : ℕ)
    (width height : ℝ) (p : Particle) (hw : 0 ≤ width) (hh : 0 ≤ height)
    (hhue : 0 ≤ p.hue) :
    Real.sqrt
        ((p.update mousePressed mouseX mouseY repulsion randX randY
            frameCount width height).vx ^ 2 +
          (p.update mousePressed mouseX mouseY repulsion randX randY
            frameCount width height).vy ^ 2) ≤ (maxSpeed : ℝ) ∧
      0 ≤ (p.update mousePressed mouseX mouseY repulsion randX randY
        frameCount width height).hue ∧
      (p.update mousePressed mouseX mouseY repulsion randX randY
        frameCount width height).hue < 360 ∧
      0 ≤ (p.update mousePressed mouseX mouseY repulsion randX randY
        frameCount width height).px ∧
      (p.update mousePressed mouseX mouseY repulsion randX randY
        frameCount width height).px ≤ width ∧
      0 ≤ (p.update mousePressed mouseX mouseY repulsion randX randY
        frameCount width height).py ∧
      (p.update mousePressed mouseX mouseY repulsion randX randY
        frameCount width height).py ≤ height := by
  have hms : (0 : ℝ) ≤ (maxSpeed : ℝ) := by
    norm_num [maxSpeed]
  have hhue' : (0 : ℝ) ≤ p.hue + 0.1 := by
    norm_num
    linarith
  have hmod := jsMod_nonneg_lt (p.hue + 0.1) 360 hhue' (by norm_num)
  simp only [Particle.update]
  refine ⟨sqrt_drag_le _ _ _ hms, hmod.1, hmod.2, (wrapCoord_mem _ _ hw).1,
    (wrapCoord_mem _ _ hw).2, (wrapCoord_mem _ _ hh).1,
    (wrapCoord_mem _ _ hh).2⟩

/-- Witness for C7 at a concrete particle and domain. -/
theorem c7_update_invariants_witness :
    0 ≤ ((⟨0, 0, 0, 0, 0, 0, 0, 0, 0, 0, 0⟩ : Particle).update false 0 0
        false 0 0 0 400 300).hue :=
  (c7_update_invariants false 0 0 false 0 0 0 400 300
    ⟨0, 0, 0, 0, 0, 0, 0, 0, 0, 0, 0⟩ (by norm_num) (by norm_num)
    (le_refl 0)).2.1

/-- C6 (amended): whenever the pointer is inactive, or active at a
distance greater than 5 from the particle, the update result does not
depend on the acceleration stored from the previous call; in the
remaining case (pointer active within distance 5) the source skips the
assignment and the stale acceleration flows through, as the
counterexample shows. -/
theorem c6_acc_recomputed (mousePressed : Bool) (mouseX mouseY : ℝ)
    (repulsion : Bool) (randX randY : ℝ) (frameCount : ℕ)
    (width height : ℝ) (p : Particle) (a1x a1y a2x a2y : ℝ)
    (hcase : mousePressed = false ∨
      5 < Real.sqrt ((mouseX - p.px) * (mouseX - p.px) +
        (mouseY - p.py) * (mouseY - p.py))) :
    Particle.update mousePressed mouseX mouseY repulsion randX randY
        frameCount width height { p with ax := a1x, ay := a1y } =
      Particle.update mousePressed mouseX mouseY repulsion randX randY
        frameCount width height { p with ax := a2x, ay := a2y } := by
  have hacc : pointerAcc mousePressed mouseX mouseY repulsion
      { p with ax := a1x, ay := a1y } =
      pointerAcc mousePressed mouseX mouseY repulsion
      { p with ax := a2x, ay := a2y } := by
    rcases hcase with h | h
    · subst h
      rfl
    · cases mousePressed with
      | false => rfl
      | true => simp only [pointerAcc, h, if_true]
  simp [Particle.update, hacc]

/-- Witness for C6 with the pointer inactive. -/
theorem c6_acc_recomputed_witness :
    Particle.update false 0 0 false 0 0 0 400 300
        { (⟨0, 0, 0, 0, 0, 0, 0, 0, 0, 0, 0⟩ : Particle) with
          ax := 0, ay := 0 } =
      Particle.update false 0 0 false 0 0 0 400 300
        { (⟨0, 0, 0, 0, 0, 0, 0, 0, 0, 0, 0⟩ : Particle) with
          ax := 1, ay := 2 } :=
  c6_acc_recomputed false 0 0 false 0 0 0 400 300
    ⟨0, 0, 0, 0, 0, 0, 0, 0, 0, 0, 0⟩ 0 0 1 2 (Or.inl rfl)

/-- C6 counterexample: with the pointer pressed at distance exactly 5
(mouse at (3,4), particle at the origin) the guarded branch keeps the
stale acceleration, so two particles that differ only in their stored
acceleration produce different update results - the acceleration is not
recomputed from scratch for every pointer state and distance. -/
theorem c6_counterexample :
    Particle.update true 3 4 false 0 1 0 400 300
        ⟨0, 0, 0, 0, 0, 0, 0, 0, 0, 0, 0⟩ ≠
      Particle.update true 3 4 false 0 1 0 400 300
        ⟨0, 0, 0, 0, 1, 0, 0, 0, 0, 0, 0⟩ := by
  have hsqrt : Real.sqrt 25 = 5 := by
    rw [show (25 : ℝ) = 5 ^ 2 by norm_num]
    exact Real.sqrt_sq (by norm_num)
  have h1 : (Particle.update true 3 4 false 0 1 0 400 300
      ⟨0, 0, 0, 0, 0, 0, 0, 0, 0, 0, 0⟩).px = 0 := by
    norm_num [Particle.update, pointerAcc, hsqrt, limitVec, wrapCoord,
      maxSpeed]
  have h2 : (Particle.update true 3 4 false 0 1 0 400 300
      ⟨0, 0, 0, 0, 1, 0, 0, 0, 0, 0, 0⟩).px = 1 := by
    norm_num [Particle.update, pointerAcc, hsqrt, limitVec, wrapCoord,
      maxSpeed]
  intro heq
  have hx := congrArg Particle.px heq
  rw [h1, h2] at hx
  norm_num at hx

/-! ### Frame orchestration -/

/-- Indices at or above the iteration counter still hold start-of-frame
data in the mid-frame array. -/
theorem mixedArr_getD_ge (inp : FrameInput) (ps : List Particle)
    (m k : ℕ) (h : m ≤ k) :
    (mixedArr inp ps m).getD k default = ps.getD k default := by
  induction m with
  | zero => rfl
  | succ m ih =>
    rw [mixedArr, List.getD_eq_getElem?_getD,
      List.getElem?_set_ne (by omega : m ≠ k),
      ← List.getD_eq_getElem?_getD]
    exact ih (by omega)

/-- The mid-frame array keeps the start-of-frame length. -/
theorem mixedArr_length (inp : FrameInput) (ps : List Particle) (m : ℕ) :
    (mixedArr inp ps m).length = ps.length := by
  induction m with
  | zero => rfl
  | succ m ih =>
    rw [mixedArr, List.length_set]
    exact ih

/-- Indices below the iteration counter hold advanced particles in the
mid-frame array. -/
theorem mixedArr_getD_lt (inp : FrameInput) (ps : List Particle)
    (m k : ℕ) (h : k < m) (hk : k < ps.length) :
    (mixedArr inp ps m).getD k default = updAt inp ps k := by
  induction m with
  | zero => omega
  | succ m ih =>
    rcases Nat.lt_or_ge k m with hkm | hkm
    · rw [mixedArr, List.getD_eq_getElem?_getD,
        List.getElem?_set_ne (by omega : m ≠ k),
        ← List.getD_eq_getElem?_getD]
      exact ih hkm
    · have hk' : k = m := by omega
      subst hk'
      have hlen : k < (mixedArr inp ps k).length := by
        rw [mixedArr_length]
        exact hk
      rw [mixedArr, List.getD_eq_getElem?_getD,
        List.getElem?_set_self hlen]
      rfl

/-- The mid-frame array reads start-of-frame positions at every index
above the current iteration. -/
theorem posOfList_mixedArr_gt (inp : FrameInput) (ps : List Particle)
    (i j : ℕ) (h : i < j) :
    posOfList (mixedArr inp ps (i + 1)) j = posOfList ps j := by
  rw [posOfList]
  rw [mixedArr_getD_ge inp ps (i + 1) j (by omega)]
  rfl

/-- The draw loop in closed form: the fold advances every particle once,
in index order, and the emitted pairs are the per-iteration
contributions concatenated in order. -/
theorem drawStep_eq (inp : FrameInput) (ps : List Particle) :
    drawStep inp ps =
      (mixedArr inp ps ps.length,
        (List.range ps.length).flatMap (connsAt inp ps)) := by
  have main : ∀ m : ℕ,
      (List.range m).foldl
        (fun st i =>
          let q := (st.1.getD i default).update inp.mousePressed inp.mouseX
            inp.mouseY inp.repulsion (inp.rand i).1 (inp.rand i).2
            inp.frameCount inp.width inp.height
          let arr := st.1.set i q
          let found := (buildTree (posOfList ps) inp.width inp.height
            ps.length).query (posOfList arr)
            ⟨q.px, q.py, (connectionDistance : ℝ)⟩
          let conns := (found.filter fun j =>
              decide (i < j) && distLt q.px q.py (posOfList arr j).1
                (posOfList arr j).2 (connectionDistance : ℝ)).map
            fun j => (i, j)
          (arr, st.2 ++ conns))
        (ps, ([] : List (ℕ × ℕ))) =
      (mixedArr inp ps m, (List.range m).flatMap (connsAt inp ps)) := by
    intro m
    induction m with
    | zero => rfl
    | succ m ih =>
      rw [List.range_succ, List.foldl_append, ih, List.foldl_cons,
        List.foldl_nil, List.flatMap_append, List.flatMap_cons,
        List.flatMap_nil, List.append_nil]
      have hq : (mixedArr inp ps m).getD m default = ps.getD m default :=
        mixedArr_getD_ge inp ps m m (le_refl m)
      simp only [hq]
      rw [Prod.ext_iff]
      constructor
      · rw [mixedArr]
        rfl
      · simp only [connsAt, updAt, mixedArr]
  exact main ps.length

/-- Membership in the pairs of the actual draw step: the tree holds the
particles at their start-of-frame positions, the query center is the
advanced position of particle i, and the partner position read for j > i
is still the start-of-frame one. -/
theorem mem_drawStep_iff (inp : FrameInput) (ps : List Particle)
    (i j : ℕ) :
    (i, j) ∈ (drawStep inp ps).2 ↔
      i < ps.length ∧ j < ps.length ∧ i < j ∧
        (rootBoundary inp.width inp.height).contains
          (posOfList ps j).1 (posOfList ps j).2 = true ∧
        distLt (updAt inp ps i).px (updAt inp ps i).py
          (posOfList ps j).1 (posOfList ps j).2
          (connectionDistance : ℝ) = true := by
  rw [drawStep_eq]
  simp only [List.mem_flatMap, List.mem_range, connsAt, List.mem_map,
    List.mem_filter, Bool.and_eq_true, decide_eq_true_eq, Prod.mk.injEq]
  constructor
  · rintro ⟨a, ha, b, ⟨⟨hbq, hab, hd⟩, rfl, rfl⟩⟩
    obtain ⟨hst, _⟩ := mem_query_sound _ _ _ b hbq
    rw [mem_buildTree_stored_iff] at hst
    rw [posOfList_mixedArr_gt inp ps a b hab] at hd
    exact ⟨ha, hst.1, hab, hst.2, hd⟩
  · rintro ⟨hi, hjn, hij, hcont, hd⟩
    refine ⟨i, hi, j, ⟨⟨?_, hij, ?_⟩, rfl, rfl⟩⟩
    · refine mem_query_complete (posOfList ps) _ _ _
        (buildTree_spec (posOfList ps) inp.width inp.height ps.length).2.1
        j (posOfList_mixedArr_gt inp ps i j hij) ?_ ?_
      · rw [mem_buildTree_stored_iff]
        exact ⟨hjn, hcont⟩
      · rw [posOfList_mixedArr_gt inp ps i j hij]
        exact hd
    · rw [posOfList_mixedArr_gt inp ps i j hij]
      exact hd

/-- C5 (amended): within a frame of draw, the queried index is built from
the start-of-frame particle positions, before any particle moves; each
particle is advanced exactly once, just before its own range query, so a
pair (i, j) is emitted exactly when i < j, particle j's start-of-frame
position lies inside the half-open root boundary (so it entered the
index), and the distance from i's advanced position to j's start-of-frame
position is below the connection radius. The spec order - advance every
particle, then build the index from updated positions, then query - is
refuted by the counterexample. -/
theorem c5_frame_order (inp : FrameInput) (ps : List Particle) :
    (drawStep inp ps).1 = mixedArr inp ps ps.length ∧
      (∀ i j : ℕ, (i, j) ∈ (drawStep inp ps).2 ↔
        i < ps.length ∧ j < ps.length ∧ i < j ∧
          (rootBoundary inp.width inp.height).contains
            (posOfList ps j).1 (posOfList ps j).2 = true ∧
          distLt (updAt inp ps i).px (updAt inp ps i).py
            (posOfList ps j).1 (posOfList ps j).2
            (connectionDistance : ℝ) = true) :=
  ⟨by rw [drawStep_eq], fun i j => mem_drawStep_iff inp ps i j⟩

/-- The advanced array of the spec-ordered step reads the advanced
position at every in-range index. -/
theorem posOfList_updated (inp : FrameInput) (ps : List Particle) (k : ℕ)
    (hk : k < ps.length) :
    posOfList ((List.range ps.length).map (updAt inp ps)) k =
      ((updAt inp ps k).px, (updAt inp ps k).py) := by
  rw [posOfList]
  rw [List.getD_eq_getElem?_getD, List.getElem?_map, List.getElem?_range hk]
  rfl

/-- Membership in the pairs of the spec-ordered step: both endpoints use
post-update positions, for the tree and for the distance test. -/
theorem mem_specOrderedStep_iff (inp : FrameInput) (ps : List Particle)
    (i j : ℕ) :
    (i, j) ∈ (specOrderedStep inp ps).2 ↔
      i < ps.length ∧ j < ps.length ∧ i < j ∧
        (rootBoundary inp.width inp.height).contains
          (updAt inp ps j).px (updAt inp ps j).py = true ∧
        distLt (updAt inp ps i).px (updAt inp ps i).py
          (updAt inp ps j).px (updAt inp ps j).py
          (connectionDistance : ℝ) = true := by
  have hlen : ((List.range ps.length).map (updAt inp ps)).length =
      ps.length := by
    rw [List.length_map, List.length_range]
  simp only [specOrderedStep, hlen, List.mem_flatMap, List.mem_range,
    List.mem_map, List.mem_filter, Bool.and_eq_true, decide_eq_true_eq,
    Prod.mk.injEq]
  constructor
  · rintro ⟨a, ha, b, ⟨⟨hbq, hab, hd⟩, rfl, rfl⟩⟩
    obtain ⟨hst, _⟩ := mem_query_sound _ _ _ b hbq
    rw [mem_buildTree_stored_iff] at hst
    rw [posOfList_updated inp ps a ha, posOfList_updated inp ps b hst.1]
      at hd
    have hcont := hst.2
    rw [posOfList_updated inp ps b hst.1] at hcont
    exact ⟨ha, hst.1, hab, hcont, hd⟩
  · rintro ⟨hi, hjn, hij, hcont, hd⟩
    refine ⟨i, hi, j, ⟨⟨?_, hij, ?_⟩, rfl, rfl⟩⟩
    · refine mem_query_complete
        (posOfList ((List.range ps.length).map (updAt inp ps))) _ _ _
        (buildTree_spec _ inp.width inp.height _).2.1 j rfl ?_ ?_
      · rw [mem_buildTree_stored_iff, posOfList_updated inp ps j hjn]
        exact ⟨hjn, hcont⟩
      · rw [posOfList_updated inp ps i hi, posOfList_updated inp ps j hjn]
        exact hd
    · rw [posOfList_updated inp ps i hi, posOfList_updated inp ps j hjn]
      exact hd

/-- C5 counterexample: on the probe state, particle 1 starts outside the
connection radius of particle 0 and moves inside it during the frame.
The actual draw step, whose index and partner positions are
start-of-frame data, emits no pair, while the spec-ordered step - every
particle advanced first, index built from updated positions - emits the
pair (0, 1): the index queried during a frame is not built from that
frame's post-update positions. -/
theorem c5_counterexample :
    (0, 1) ∈ (specOrderedStep probeInput probeParticles).2 ∧
      (0, 1) ∉ (drawStep probeInput probeParticles).2 := by
  have hlen : probeParticles.length = 2 := by
    norm_num [probeParticles]
  have hu0x : (updAt probeInput probeParticles 0).px = 0 := by
    norm_num [updAt, probeInput, probeParticles, Particle.update,
      pointerAcc, limitVec, wrapCoord, maxSpeed]
  have hu0y : (updAt probeInput probeParticles 0).py = 0.01 := by
    norm_num [updAt, probeInput, probeParticles, Particle.update,
      pointerAcc, limitVec, wrapCoord, maxSpeed]
  have hu1x : (updAt probeInput probeParticles 1).px = 119 := by
    norm_num [updAt, probeInput, probeParticles, Particle.update,
      pointerAcc, limitVec, wrapCoord, maxSpeed]
  have hu1y : (updAt probeInput probeParticles 1).py = 0 := by
    norm_num [updAt, probeInput, probeParticles, Particle.update,
      pointerAcc, limitVec, wrapCoord, maxSpeed]
  have hp1 : posOfList probeParticles 1 = (121, 0) := by
    norm_num [posOfList, probeParticles]
  constructor
  · rw [mem_specOrderedStep_iff]
    refine ⟨by rw [hlen]; norm_num, by rw [hlen]; norm_num, by norm_num,
      ?_, ?_⟩
    · rw [hu1x, hu1y, rootBoundary_contains_iff]
      norm_num [probeInput]
    · rw [hu0x, hu0y, hu1x, hu1y, distLt_iff]
      norm_num [connectionDistance]
  · rw [mem_drawStep_iff]
    rintro ⟨-, -, -, -, hd⟩
    rw [hu0x, hu0y, hp1, distLt_iff] at hd
    norm_num [connectionDistance] at hd

end PSim
